import Mathlib

/-!
# Verification of the scrabble lexicon tool (`scrabble.py`)

A shallow embedding of the lexicon data model and its operations:

* a lexicon table is a list of entries keyed by `word` (the pandas
  `DataFrame` with `word` as index; `set_index` keeps every row,
  duplicate index values included);
* `load_zyzzyva_lexicon` parses raw wordlist lines (`WORD`, optional
  definition, optional bracketed forms list);
* `merge_lexicons` is the full outer join on `word` with the
  `csw_only` / `nwl_only` indicator flags and `combine_first` on the
  two definition columns;
* `add_points` sums the fixed `POINTS_EN` letter values over each word;
* `matchWords` embeds `Scrabble.match`: a pattern containing `_` is
  turned into the anchored regex obtained by replacing each `_` with
  `.\x7b1\x7d` and upper-casing, and evaluated against every word; a
  pattern without `_` is routed to `match_rack`, the
  anagram-with-blanks query.

Python string operations are modelled character-wise on `List Char`
(ASCII fragment of `str.upper`, `str.strip`, `str.split`, `str.rsplit`),
because the source data is ASCII wordlist text.  The regex fragment that
`match` generates (literal characters and the any-character token)
is interpreted by `regexFullMatch`; words are assumed newline-free,
as produced by the line-based loader.  The outcome of the discarded
`re.compile` test in `match` is abstracted by a boolean oracle argument,
since its result never influences control flow.
-/

namespace ScrabbleSpec

/-- One row of a lexicon table: the index `word` plus the remaining
column values, kept abstract so that filtering visibly preserves them. -/
structure Entry (α : Type) where
  word : String
  attrs : α
deriving DecidableEq

/-- A lexicon table: the rows of the `DataFrame`, in order, keyed by
`word` (pandas `set_index('word')` keeps all rows, including rows with
a duplicated index value). -/
abbrev Table (α : Type) := List (Entry α)

/-- A row of a freshly loaded Zyzzyva lexicon: columns
`word`, `definition`, `forms`.  A missing definition is `none`
(`NaN` in the frame). -/
structure LexEntry where
  word : String
  definition : Option String
  forms : List String
deriving DecidableEq

/-- A row of the merged lexicon: both forms columns (absent when the
word is missing from that source), the coalesced definition, and the
two membership flags. -/
structure MergedEntry where
  word : String
  forms_csw : Option (List String)
  forms_nwl : Option (List String)
  definition : Option String
  csw_only : Bool
  nwl_only : Bool
deriving DecidableEq

/-- The `Loader` state: the two optionally loaded source lexicons
(`None` when a load failed or never happened). -/
structure Loader where
  CSW : Option (List LexEntry)
  NWL : Option (List LexEntry)

/-- The fixed English letter-value table `POINTS_EN`
(26 letters plus the blank symbol, worth 0). -/
def POINTS_EN : List (Char × Nat) :=
  [('A', 1), ('B', 3), ('C', 3), ('D', 2), ('E', 1), ('F', 4), ('G', 2),
   ('H', 4), ('I', 1), ('J', 8), ('K', 5), ('L', 1), ('M', 3), ('N', 1),
   ('O', 1), ('P', 3), ('Q', 10), ('R', 1), ('S', 1), ('T', 1), ('U', 1),
   ('V', 4), ('W', 4), ('X', 8), ('Y', 4), ('Z', 10), ('?', 0)]

/-! ## Python string primitives, modelled on `List Char` -/

/-- The whitespace characters stripped by Python's `str.strip()`
(ASCII fragment). -/
def isPySpace (c : Char) : Bool :=
  c == ' ' || c == '\t' || c == '\n' || c == '\r' || c == '\x0b' || c == '\x0c'

/-- Python `str.strip()`: drop whitespace from both ends. -/
def pyStrip (cs : List Char) : List Char :=
  ((cs.dropWhile isPySpace).reverse.dropWhile isPySpace).reverse

/-- Python `s.split(sep, 1)`: the part before the first occurrence of
`sep`, and — when `sep` occurs — the remainder after it. -/
def splitOnFirst (sep : Char) : List Char → List Char × Option (List Char)
  | [] => ([], none)
  | c :: rest =>
    if c == sep then ([], some rest)
    else
      let r := splitOnFirst sep rest
      (c :: r.1, r.2)

/-- Python `s.split(sep)` (all occurrences): list of the groups between
occurrences of `sep`; `[""]` on the empty string, as in Python. -/
def splitAll (sep : Char) : List Char → List (List Char)
  | [] => [[]]
  | c :: rest =>
    match splitAll sep rest with
    | [] => [[c]]
    | g :: gs => if c == sep then [] :: g :: gs else (c :: g) :: gs

/-- Python `s.rsplit(sep, 1)` when `sep` occurs in `s`: the part before
the last occurrence and the part after it.  (The code only calls this
under a guard ensuring `sep` occurs; without an occurrence it returns
`(s, [])`.) -/
def rsplitLast (sep : Char) (cs : List Char) : List Char × List Char :=
  match splitOnFirst sep cs.reverse with
  | (sufRev, some preRev) => (preRev.reverse, sufRev.reverse)
  | (allRev, none) => (allRev.reverse, [])

/-- Python `s.strip('[]')`: drop `[` and `]` characters from both ends. -/
def stripBrackets (cs : List Char) : List Char :=
  let isBr := fun c => c == '[' || c == ']'
  ((cs.dropWhile isBr).reverse.dropWhile isBr).reverse

/-- Python `str.upper()` (ASCII fragment), character-wise. -/
def pyUpper (cs : List Char) : List Char :=
  cs.map Char.toUpper

/-! ## Loading a Zyzzyva lexicon -/

/-- One iteration of the parsing loop of `load_zyzzyva_lexicon`:
strip the line, skip it when blank, split off the word at the first
space, then either take the rest as the definition, or — when it
contains both `[` and `]` — split at the last `[` into the (unstripped)
definition and the bracket-stripped, comma-separated forms list. -/
def parseLine (raw : String) : Option LexEntry :=
  let line := pyStrip raw.toList
  if line.isEmpty then none
  else
    let parts := splitOnFirst ' ' line
    let word := String.mk (pyStrip parts.1)
    match parts.2 with
    | none => some ⟨word, none, []⟩
    | some rest =>
      if rest.contains '[' && rest.contains ']' then
        let dr := rsplitLast '[' rest
        let forms := (splitAll ',' (stripBrackets dr.2)).map
          (fun g => String.mk (pyStrip g))
        some ⟨word, some (String.mk dr.1), forms⟩
      else
        some ⟨word, some (String.mk (pyStrip rest)), []⟩

/-- `Scrabble.load_zyzzyva_lexicon`, from the file's lines to the rows
of the resulting table.  No deduplication happens anywhere on this
path: `pd.DataFrame(data, ...)` keeps every parsed record and
`set_index('word')` keeps duplicate index values. -/
def load_zyzzyva_lexicon (lines : List String) : List LexEntry :=
  lines.filterMap parseLine

/-! ## Merging -/

/-- Whether `w` is a key of the table (a value of its `word` index). -/
def hasWord (t : List LexEntry) (w : String) : Bool :=
  t.any (fun e => e.word == w)

/-- `Scrabble.merge_lexicons`: full outer join of the two tables on the
`word` index (`pd.merge(..., how='outer', left_index=True,
right_index=True, indicator=...)`), with `definition` coalesced by
`combine_first` (the CSW definition when present, else the NWL one) and
`csw_only` / `nwl_only` set from the merge indicator.  Row order of the
join (pandas sorts the key union) is not modelled; the claims under
verification are order-independent, so the rows are listed as the CSW
rows followed by the NWL-only rows. -/
def merge_lexicons (csw nwl : List LexEntry) : List MergedEntry :=
  (csw.map fun a =>
    match nwl.find? (fun b => b.word == a.word) with
    | some b =>
      ⟨a.word, some a.forms, some b.forms, a.definition.or b.definition,
        false, false⟩
    | none => ⟨a.word, some a.forms, none, a.definition, true, false⟩)
  ++ ((nwl.filter (fun b => !hasWord csw b.word)).map fun b =>
    ⟨b.word, none, some b.forms, b.definition, false, true⟩)

/-- `Loader.create_merged`: raises `ValueError` unless both source
lexicons are loaded, otherwise merges them. -/
def create_merged (l : Loader) : Except String (List MergedEntry) :=
  match l.CSW, l.NWL with
  | some c, some n => .ok (merge_lexicons c n)
  | _, _ =>
    .error "Both CSW and NWL lexicons must be loaded before merging."

/-! ## Point computation -/

/-- The inner `calculate_points` of `Scrabble.add_points`:
`sum(POINTS_EN.get(char.upper(), 0) for char in word)`. -/
def calculate_points (word : String) : Nat :=
  (word.toList.map (fun ch => ((POINTS_EN.lookup ch.toUpper).getD 0))).sum

/-- `Scrabble.add_points`: map `calculate_points` over the `word` index
and store the result as the `points` column of every row. -/
def add_points (t : Table α) : Table (α × Nat) :=
  t.map fun e => ⟨e.word, (e.attrs, calculate_points e.word)⟩

/-! ## Rack matching -/

/-- `sum((Counter(word) - Counter(rack)).values())`: the total
per-character deficit of the word against the rack.  `Counter`
subtraction keeps only the strictly positive differences, and only
characters of the left operand can appear, so the sum ranges over the
distinct characters of the word with truncated subtraction. -/
def deficitSum (wcs rcs : List Char) : Nat :=
  (wcs.dedup.map (fun c => wcs.count c - rcs.count c)).sum

/-- The inner `can_form` of `Scrabble.match_rack`: the word's deficit
against the rack must be covered by the rack's blank count
(`rack_counter.get('?', 0)`). -/
def can_form (rcs : List Char) (word : String) : Bool :=
  deficitSum (pyUpper word.toList) rcs ≤ rcs.count '?'

/-- `Scrabble.match_rack`: keep the rows whose word can be formed from
the upper-cased rack. -/
def match_rack (t : Table α) (rack : String) : Table α :=
  t.filter (fun e => can_form (pyUpper rack.toList) e.word)

/-! ## Fixed-position (regex) matching -/

/-- A token of the regex fragment that `Scrabble.match` generates:
a literal character, or the any-character token `.` (which Python's
`re` also produces from the `.\x7b1\x7d` that replaces each `_`). -/
inductive RTok where
  | dot : RTok
  | lit : Char → RTok
deriving DecidableEq

/-- Read the transformed pattern as regex tokens: `.` — optionally
written `.\x7b1\x7d` — is the any-character token, and every other
character stands for itself.  This interprets exactly the fragment of
`re` syntax reachable from patterns made of letters, `_` and `.`,
which is the fragment the claims quantify over. -/
def parseToks : List Char → List RTok
  | [] => []
  | '.' :: '{' :: '1' :: '}' :: rest => RTok.dot :: parseToks rest
  | '.' :: rest => RTok.dot :: parseToks rest
  | c :: rest => RTok.lit c :: parseToks rest

/-- Whether one regex token matches one character (`.` matches any
character except a newline). -/
def tokMatches : RTok → Char → Bool
  | RTok.dot, c => c != '\n'
  | RTok.lit p, c => p == c

/-- Anchored evaluation of a token sequence `^t₁…tₙ$` against a word:
the lengths agree and every token matches its character.  (Words are
newline-free here, so `$` is the plain end anchor.) -/
def regexFullMatch (toks : List RTok) (wcs : List Char) : Bool :=
  toks.length == wcs.length &&
    (toks.zip wcs).all (fun pr => tokMatches pr.1 pr.2)

/-- `pattern.replace('_', '.\x7b1\x7d')`. -/
def replaceUnderscore : List Char → List Char
  | [] => []
  | c :: rest =>
    if c == '_' then '.' :: '{' :: '1' :: '}' :: replaceUnderscore rest
    else c :: replaceUnderscore rest

/-- `Scrabble.match`.  The result of the initial `re.compile(pattern)`
test is abstracted by the oracle `reOk` — the source discards it
(`except re.error: pass`), so it influences nothing.  A pattern
containing `_` is replaced-and-uppercased into the anchored regex
`^…$` and evaluated against every word; any other pattern is routed to
`match_rack`. -/
def matchWords (reOk : String → Bool) (t : Table α) (pattern : String) :
    Table α :=
  let _compileOutcome := reOk pattern
  if pattern.toList.contains '_' then
    let toks := parseToks (pyUpper (replaceUnderscore pattern.toList))
    t.filter (fun e => regexFullMatch toks e.word.toList)
  else
    match_rack t pattern

end ScrabbleSpec

namespace ScrabbleSpec

/-! ## Helper lemmas -/

lemma toFinset_dedup_list {α : Type} [DecidableEq α] (l : List α) :
    l.dedup.toFinset = l.toFinset := by
  ext x
  simp [List.mem_toFinset, List.mem_dedup]

lemma dedup_map_sum {α M : Type} [DecidableEq α] [AddCommMonoid M]
    (l : List α) (f : α → M) :
    (l.dedup.map f).sum = ∑ c ∈ l.toFinset, f c := by
  rw [← List.sum_toFinset f (List.nodup_dedup l), toFinset_dedup_list]

lemma natSub_cast_eq_max (a b : Nat) :
    ((a - b : Nat) : Int) = max 0 ((a : Int) - (b : Int)) := by
  rcases Nat.le_total a b with h | h
  · have h2 : (a : Int) - b ≤ 0 := by omega
    rw [Nat.sub_eq_zero_of_le h, max_eq_left h2]
    rfl
  · have h2 : (0 : Int) ≤ (a : Int) - b := by omega
    rw [max_eq_right h2]
    omega

end ScrabbleSpec

namespace ScrabbleSpec

/-! ## C2: routing of patterns without an underscore -/

/-- C2: for every table and every pattern without `_`, `match` routes
the pattern to rack matching, and the outcome of the `re.compile` test
(the oracle argument) never influences the result — a compilation
failure is silently tolerated and nothing is raised (the embedding is a
total function into tables). -/
theorem match_routing {α : Type} (reOk reOk' : String → Bool)
    (t : Table α) (p : String) (hp : ¬ p.toList.contains '_') :
    matchWords reOk t p = match_rack t p ∧
      matchWords reOk t p = matchWords reOk' t p := by
  have hp' : ¬ '_' ∈ p.data := by simpa using hp
  constructor <;> simp [matchWords, hp']

/-- Witness for C2 at an invalid regex pattern: `"("` does not compile,
yet `match` returns the rack-matching result under any compile outcome. -/
theorem match_routing_witness :
    matchWords (fun _ => false) ([⟨"CAT", 0⟩] : Table Nat) "(" =
      match_rack ([⟨"CAT", 0⟩] : Table Nat) "(" :=
  (match_routing (fun _ => false) (fun _ => true) _ "(" (by decide)).1

/-! ## C8: match returns a subset with unchanged attributes -/

/-- C8: the result of `match` is a sublist of the input table — every
returned entry is an entry of the input with all its attribute values
intact — and the input itself is untouched (the embedding is pure and
both branches of `match` are filters). -/
theorem match_preserves_entries {α : Type} (reOk : String → Bool)
    (t : Table α) (p : String) :
    List.Sublist (matchWords reOk t p) t ∧
      ∀ e ∈ matchWords reOk t p, e ∈ t := by
  have h : List.Sublist (matchWords reOk t p) t := by
    by_cases hc : p.toList.contains '_'
    · simp only [matchWords, hc, if_true]
      exact List.filter_sublist t
    · simp only [matchWords, match_rack, hc]
      exact List.filter_sublist t
  exact ⟨h, fun e he => h.subset he⟩

/-! ## C10: matching is idempotent -/

/-- C10: applying `match` twice with the same pattern gives the same
table as applying it once. -/
theorem match_idempotent {α : Type} (reOk : String → Bool)
    (t : Table α) (p : String) :
    matchWords reOk (matchWords reOk t p) p = matchWords reOk t p := by
  by_cases hc : '_' ∈ p.data
  · simp [matchWords, hc, List.filter_filter]
  · simp [matchWords, match_rack, hc, List.filter_filter]

/-! ## C7: merge precondition -/

/-- C7: merging with either input lexicon absent raises the explicit
`ValueError` and yields no partial result; with both present, the merge
runs and no error is raised. -/
theorem create_merged_precondition (l : Loader) :
    (l.CSW = none ∨ l.NWL = none →
      create_merged l =
        .error "Both CSW and NWL lexicons must be loaded before merging.") ∧
    (∀ c n, l.CSW = some c → l.NWL = some n →
      create_merged l = .ok (merge_lexicons c n)) := by
  rcases l with ⟨_ | c, _ | n⟩ <;> simp [create_merged]

/-- Witness for C7: a loader with only NWL loaded errors out; a loader
with both loaded merges. -/
theorem create_merged_precondition_witness :
    create_merged ⟨none, some []⟩ =
        .error "Both CSW and NWL lexicons must be loaded before merging." ∧
      create_merged ⟨some [], some []⟩ = .ok (merge_lexicons [] []) :=
  ⟨(create_merged_precondition ⟨none, some []⟩).1 (Or.inl rfl),
   (create_merged_precondition ⟨some [], some []⟩).2 [] [] rfl rfl⟩

/-! ## C6: point computation -/

/-- The points of a word as the specification words it: the word is
upper-cased and each character contributes its `POINTS_EN` value,
0 when the character is absent from the table. -/
def specPoints (word : String) : Nat :=
  ((pyUpper word.toList).map (fun c => ((POINTS_EN.lookup c).getD 0))).sum

/-- C6: after the point-computation pass every entry's points column is
the `POINTS_EN` sum over its upper-cased word (absent characters count
0); in particular a table containing `CAT` gets 3+1+1 = 5 points. -/
theorem add_points_correct {α : Type} (t : Table α) :
    ((add_points t).map (fun e => e.attrs.2) =
        t.map (fun e => specPoints e.word)) ∧
      add_points ([⟨"CAT", ()⟩] : Table Unit) = [⟨"CAT", ((), 5)⟩] := by
  constructor
  · simp only [add_points, specPoints, calculate_points, pyUpper,
      List.map_map]
    exact List.map_congr_left fun a _ => rfl
  · decide

end ScrabbleSpec

namespace ScrabbleSpec

/-! ## C9: duplicate words are NOT rejected -/

lemma parseLine_eq_none_iff (raw : String) :
    parseLine raw = none ↔ pyStrip raw.toList = [] := by
  unfold parseLine
  constructor
  · intro hnone
    by_contra h
    have hne : ¬ (pyStrip raw.toList).isEmpty = true := by
      simpa [List.isEmpty_iff] using h
    rw [if_neg hne] at hnone
    revert hnone
    dsimp only
    split <;> (try split) <;> simp
  · intro h
    have hyes : (pyStrip raw.toList).isEmpty = true := by
      simpa [List.isEmpty_iff] using h
    rw [if_pos hyes]

/-- Counterexample for C9: two raw records with the same word both
survive construction — the table maps `word` onto two entries, so the
first occurrence is not the only one kept and two entries do share a
word. -/
theorem load_duplicates_cex :
    (load_zyzzyva_lexicon ["CAT one", "CAT two"]).map LexEntry.word =
        ["CAT", "CAT"] ∧
      ¬ ((load_zyzzyva_lexicon ["CAT one", "CAT two"]).map
          LexEntry.word).Nodup ∧
      load_zyzzyva_lexicon ["CAT one", "CAT two"] ≠
        [⟨"CAT", some "one", []⟩] := by
  refine ⟨by decide, by decide, by decide⟩

/-- C9 (amended): construction keeps exactly one entry per non-blank
raw record, in order — duplicated words included — so word uniqueness
holds only when the source records are already duplicate-free. -/
theorem load_entry_per_line (lines : List String) :
    (load_zyzzyva_lexicon lines).length =
      (lines.filter (fun l => !(pyStrip l.toList).isEmpty)).length := by
  induction lines with
  | nil => rfl
  | cons l ls ih =>
    by_cases h : pyStrip l.toList = []
    · have h' : pyStrip l.data = [] := h
      have hn : parseLine l = none := (parseLine_eq_none_iff l).mpr h
      simpa [load_zyzzyva_lexicon, List.filterMap_cons, hn,
        List.filter_cons, h'] using ih
    · have h' : ¬ pyStrip l.data = [] := h
      have hs : parseLine l ≠ none := fun hc =>
        h ((parseLine_eq_none_iff l).mp hc)
      rcases Option.ne_none_iff_exists'.mp hs with ⟨e, he⟩
      simpa [load_zyzzyva_lexicon, List.filterMap_cons, he,
        List.filter_cons, h'] using ih

end ScrabbleSpec

namespace ScrabbleSpec

/-! ## C1: rack matching -/

/-- The deficit of a word against a rack as the specification words it:
over every letter that occurs anywhere (letters occurring in neither
list contribute nothing), the excess `max 0 (count in word − count in
rack)`, as an integer. -/
def specDeficit (wcs rcs : List Char) : Int :=
  (((wcs ++ rcs).dedup).map
    (fun c => max 0 ((wcs.count c : Int) - (rcs.count c : Int)))).sum

lemma specDeficit_eq_deficitSum (w r : List Char) :
    specDeficit w r = (deficitSum w r : Int) := by
  unfold specDeficit deficitSum
  rw [dedup_map_sum, dedup_map_sum]
  have hsub : w.toFinset ⊆ (w ++ r).toFinset := by
    intro x hx
    simp only [List.mem_toFinset, List.mem_append] at hx ⊢
    exact Or.inl hx
  have hvanish : ∀ x ∈ (w ++ r).toFinset, x ∉ w.toFinset →
      max 0 ((w.count x : Int) - (r.count x : Int)) = 0 := by
    intro x _ hx
    have hzero : w.count x = 0 :=
      List.count_eq_zero.mpr (by simpa using hx)
    have hle : ((w.count x : Int) - (r.count x : Int)) ≤ 0 := by
      rw [hzero]
      omega
    exact max_eq_left hle
  rw [← Finset.sum_subset hsub hvanish]
  rw [Nat.cast_sum]
  apply Finset.sum_congr rfl
  intro c _
  exact (natSub_cast_eq_max _ _).symm

/-- C1: for every table and every pattern without `_`, `match` performs
the rack (anagram-with-blanks) query: an entry is in the result exactly
when it is in the table and the summed per-letter deficit
`max 0 (count in word − count in rack)` — word and rack upper-cased —
is at most the rack's count of `?` blanks.  Word length is not
constrained by rack length. -/
theorem match_rack_correct {α : Type} (reOk : String → Bool)
    (t : Table α) (p : String) (hp : ¬ p.toList.contains '_')
    (e : Entry α) :
    e ∈ matchWords reOk t p ↔
      e ∈ t ∧
        specDeficit (pyUpper e.word.toList) (pyUpper p.toList) ≤
          ((pyUpper p.toList).count '?' : Int) := by
  have hp' : ¬ '_' ∈ p.data := by simpa using hp
  have hroute : matchWords reOk t p = match_rack t p := by
    simp [matchWords, hp']
  rw [hroute]
  unfold match_rack can_form
  rw [List.mem_filter]
  rw [specDeficit_eq_deficitSum]
  simp [Int.ofNat_le]

/-- Witness for C1: rack `CA?` (one blank) matches `CAT` (deficit 1,
covered by the blank) and not `DOG` (deficit 3). -/
theorem match_rack_correct_witness :
    ((⟨"CAT", 0⟩ : Entry Nat) ∈
        matchWords (fun _ => true)
          ([⟨"CAT", 0⟩, ⟨"CAB", 1⟩, ⟨"DOG", 2⟩] : Table Nat) "CA?") ∧
      ¬ ((⟨"DOG", 2⟩ : Entry Nat) ∈
        matchWords (fun _ => true)
          ([⟨"CAT", 0⟩, ⟨"CAB", 1⟩, ⟨"DOG", 2⟩] : Table Nat) "CA?") :=
  ⟨(match_rack_correct (fun _ => true) _ "CA?" (by decide) _).mpr
      ⟨by decide, by decide⟩,
   fun h => absurd
      ((match_rack_correct (fun _ => true) _ "CA?" (by decide) _).mp h).2
      (by decide)⟩

end ScrabbleSpec

namespace ScrabbleSpec

/-! ## C4 and C5: merge semantics -/

lemma hasWord_true_of_mem {A : List LexEntry} {a : LexEntry} (ha : a ∈ A) :
    hasWord A a.word = true := by
  unfold hasWord
  rw [List.any_eq_true]
  exact ⟨a, ha, by simp⟩

lemma hasWord_true_of_find?_some {B : List LexEntry} {w : String}
    {b : LexEntry} (h : B.find? (fun x => x.word == w) = some b) :
    hasWord B w = true ∧ b.word = w ∧ b ∈ B := by
  have hb := List.mem_of_find?_eq_some h
  have hw : b.word = w := by simpa using List.find?_some h
  refine ⟨?_, hw, hb⟩
  unfold hasWord
  rw [List.any_eq_true]
  exact ⟨b, hb, by simp [hw]⟩

lemma hasWord_false_of_find?_none {B : List LexEntry} {w : String}
    (h : B.find? (fun x => x.word == w) = none) :
    hasWord B w = false := by
  unfold hasWord
  rw [List.any_eq_false]
  exact fun x hx => List.find?_eq_none.mp h x hx

lemma mem_merge_lexicons_cases {A B : List LexEntry} {e : MergedEntry}
    (he : e ∈ merge_lexicons A B) :
    (∃ a ∈ A, ∃ b, B.find? (fun x => x.word == a.word) = some b ∧
        e = ⟨a.word, some a.forms, some b.forms,
          a.definition.or b.definition, false, false⟩) ∨
      (∃ a ∈ A, B.find? (fun x => x.word == a.word) = none ∧
        e = ⟨a.word, some a.forms, none, a.definition, true, false⟩) ∨
      (∃ b ∈ B, hasWord A b.word = false ∧
        e = ⟨b.word, none, some b.forms, b.definition, false, true⟩) := by
  unfold merge_lexicons at he
  rcases List.mem_append.mp he with h | h
  · rcases List.mem_map.mp h with ⟨a, ha, hae⟩
    rcases hfind : B.find? (fun x => x.word == a.word) with _ | b
    · right; left
      refine ⟨a, ha, hfind, ?_⟩
      rw [← hae, hfind]
    · left
      refine ⟨a, ha, b, hfind, ?_⟩
      rw [← hae, hfind]
  · rcases List.mem_map.mp h with ⟨b, hb, hbe⟩
    have hb' := List.mem_filter.mp hb
    right; right
    exact ⟨b, hb'.1, by simpa using hb'.2, hbe.symm⟩

/-- C4: the merged table's key set is the union of the two input key
sets, and an entry is flagged `csw_only` exactly when its word is a key
of the first table and not the second, `nwl_only` exactly when it is a
key of the second and not the first; both flags are false for words in
both.  The inputs are tables, so their keys are unique. -/
theorem merge_flags_correct (A B : List LexEntry)
    (_hA : (A.map LexEntry.word).Nodup)
    (_hB : (B.map LexEntry.word).Nodup) :
    (∀ w, (∃ e ∈ merge_lexicons A B, e.word = w) ↔
        (hasWord A w ∨ hasWord B w)) ∧
      ∀ e ∈ merge_lexicons A B,
        e.csw_only = (hasWord A e.word && !hasWord B e.word) ∧
        e.nwl_only = (hasWord B e.word && !hasWord A e.word) := by
  constructor
  · intro w
    constructor
    · rintro ⟨e, he, rfl⟩
      rcases mem_merge_lexicons_cases he with
        ⟨a, ha, b, hf, he'⟩ | ⟨a, ha, hf, he'⟩ | ⟨b, hb, hf, he'⟩
      · subst he'
        exact Or.inl (hasWord_true_of_mem ha)
      · subst he'
        exact Or.inl (hasWord_true_of_mem ha)
      · subst he'
        exact Or.inr (hasWord_true_of_mem hb)
    · intro h
      by_cases hAw : hasWord A w = true
      · obtain ⟨a, ha, haw⟩ := List.any_eq_true.mp hAw
        have haw' : a.word = w := by simpa using haw
        subst haw'
        rcases hfind : B.find? (fun x => x.word == a.word) with _ | b
        · refine ⟨⟨a.word, some a.forms, none, a.definition, true, false⟩,
            ?_, rfl⟩
          unfold merge_lexicons
          apply List.mem_append_left
          apply List.mem_map.mpr
          exact ⟨a, ha, by rw [hfind]⟩
        · refine ⟨⟨a.word, some a.forms, some b.forms,
            a.definition.or b.definition, false, false⟩, ?_, rfl⟩
          unfold merge_lexicons
          apply List.mem_append_left
          apply List.mem_map.mpr
          exact ⟨a, ha, by rw [hfind]⟩
      · have hBw : hasWord B w = true := by
          rcases h with h | h
          · exact absurd h hAw
          · exact h
        obtain ⟨b, hb, hbw⟩ := List.any_eq_true.mp hBw
        have hbw' : b.word = w := by simpa using hbw
        subst hbw'
        refine ⟨⟨b.word, none, some b.forms, b.definition, false, true⟩,
          ?_, rfl⟩
        unfold merge_lexicons
        apply List.mem_append_right
        apply List.mem_map.mpr
        refine ⟨b, List.mem_filter.mpr ⟨hb, ?_⟩, rfl⟩
        simp only [Bool.not_eq_true'] at hAw ⊢
        simpa using hAw
  · intro e he
    rcases mem_merge_lexicons_cases he with
      ⟨a, ha, b, hf, he'⟩ | ⟨a, ha, hf, he'⟩ | ⟨b, hb, hf, he'⟩
    · obtain ⟨hBw, _, _⟩ := hasWord_true_of_find?_some hf
      subst he'
      simp [hasWord_true_of_mem ha, hBw]
    · have hBw := hasWord_false_of_find?_none hf
      subst he'
      simp [hasWord_true_of_mem ha, hBw]
    · subst he'
      simp [hasWord_true_of_mem hb, hf]

/-- Witness for C4 on concrete tables: the key `AA` of the first table
is a key of the merged table. -/
theorem merge_flags_correct_witness :
    ∃ e ∈ merge_lexicons [⟨"AA", some "da", []⟩] [⟨"CC", some "dc", []⟩],
      e.word = "AA" :=
  ((merge_flags_correct [⟨"AA", some "da", []⟩] [⟨"CC", some "dc", []⟩]
    (by decide) (by decide)).1 "AA").mpr (Or.inl (by decide))

/-- C5: when a word is present in both tables, the merged definition is
the first (CSW) table's definition whenever that is present, and the
second (NWL) table's definition when the first has none — the first
table always wins ties. -/
theorem merge_definition_priority (A B : List LexEntry)
    (hA : (A.map LexEntry.word).Nodup) (hB : (B.map LexEntry.word).Nodup)
    (a b : LexEntry) (ha : a ∈ A) (hb : b ∈ B) (hw : b.word = a.word) :
    (∃ e ∈ merge_lexicons A B, e.word = a.word) ∧
      ∀ e ∈ merge_lexicons A B, e.word = a.word →
        (∀ dA, a.definition = some dA → e.definition = some dA) ∧
        (a.definition = none → e.definition = b.definition) := by
  have hfind : ∃ b', B.find? (fun x => x.word == a.word) = some b' := by
    rcases hfo : B.find? (fun x => x.word == a.word) with _ | b'
    · exact absurd (List.find?_eq_none.mp hfo b hb) (by simp [hw])
    · exact ⟨b', hfo⟩
  obtain ⟨b', hb'⟩ := hfind
  obtain ⟨_, hb'w, hb'B⟩ := hasWord_true_of_find?_some hb'
  have hbb : b' = b :=
    List.inj_on_of_nodup_map hB hb'B hb (by rw [hb'w, hw])
  subst hbb
  constructor
  · refine ⟨⟨a.word, some a.forms, some b'.forms,
      a.definition.or b'.definition, false, false⟩, ?_, rfl⟩
    unfold merge_lexicons
    apply List.mem_append_left
    apply List.mem_map.mpr
    exact ⟨a, ha, by rw [hb']⟩
  · intro e he hew
    rcases mem_merge_lexicons_cases he with
      ⟨a2, ha2, b2, hf2, he'⟩ | ⟨a2, ha2, hf2, he'⟩ | ⟨b2, hb2, hf2, he'⟩
    · have ha2a : a2 = a := by
        apply List.inj_on_of_nodup_map hA ha2 ha
        rw [← hew, he']
      subst ha2a
      rw [hf2] at hb'
      have hb2b : b2 = b' := Option.some.inj hb'
      subst hb2b
      subst he'
      constructor
      · intro dA hdA
        simp [hdA, Option.or]
      · intro hnone
        simp [hnone, Option.or]
    · have ha2a : a2 = a := by
        apply List.inj_on_of_nodup_map hA ha2 ha
        rw [← hew, he']
      subst ha2a
      rw [hf2] at hb'
      exact absurd hb' (by simp)
    · exfalso
      have : hasWord A b2.word = true := by
        have hb2w : b2.word = a.word := by rw [← hew, he']
        rw [hb2w]
        exact hasWord_true_of_mem ha
      rw [hf2] at this
      exact absurd this (by simp)

/-- Witness for C5: both tables contain `AA` with a definition; the
merged entry for `AA` carries the first table's definition `da`. -/
theorem merge_definition_priority_witness :
    ∃ e ∈ merge_lexicons [⟨"AA", some "da", []⟩] [⟨"AA", some "db", []⟩],
      e.word = "AA" :=
  (merge_definition_priority
    [⟨"AA", some "da", []⟩] [⟨"AA", some "db", []⟩]
    (by decide) (by decide)
    ⟨"AA", some "da", []⟩ ⟨"AA", some "db", []⟩
    (by decide) (by decide) rfl).1

end ScrabbleSpec

namespace ScrabbleSpec

/-! ## C3: fixed-position matching -/

/-- The uppercase letters, the alphabet of lexicon words. -/
def azUpper : List Char := "ABCDEFGHIJKLMNOPQRSTUVWXYZ".toList

/-- The ASCII letters, the literal characters of a fixed-position
pattern. -/
def azLetters : List Char :=
  azUpper ++ "abcdefghijklmnopqrstuvwxyz".toList

/-- Fixed-position matching as the specification words it: pattern and
word have the same length, and position by position either the pattern
has the wildcard `_` or its character equals the word's character up to
letter case. -/
def specFixedMatches (pcs wcs : List Char) : Prop :=
  pcs.length = wcs.length ∧
    ∀ pr ∈ pcs.zip wcs, pr.1 = '_' ∨ pr.1.toUpper = pr.2.toUpper

instance (pcs wcs : List Char) : Decidable (specFixedMatches pcs wcs) := by
  unfold specFixedMatches
  infer_instance

lemma azUpper_facts : ∀ c ∈ azUpper, c.toUpper = c ∧ ¬ c = '\n' := by
  decide

lemma azLetters_facts :
    ∀ c ∈ azLetters, ¬ c = '_' ∧ ¬ c.toUpper = '.' := by
  decide

lemma parseToks_dotBrace (rest : List Char) :
    parseToks ('.' :: '{' :: '1' :: '}' :: rest) =
      RTok.dot :: parseToks rest := rfl

lemma parseToks_cons_ne (c : Char) (h : ¬ c = '.') (rest : List Char) :
    parseToks (c :: rest) = RTok.lit c :: parseToks rest := by
  rw [parseToks.eq_def]
  split <;> simp_all

lemma replaceUnderscore_cons_us (rest : List Char) :
    replaceUnderscore ('_' :: rest) =
      '.' :: '{' :: '1' :: '}' :: replaceUnderscore rest := by
  simp [replaceUnderscore]

lemma replaceUnderscore_cons_ne (c : Char) (h : ¬ c = '_')
    (rest : List Char) :
    replaceUnderscore (c :: rest) = c :: replaceUnderscore rest := by
  simp [replaceUnderscore, h]

lemma parseToks_pattern (pcs : List Char)
    (hpc : ∀ c ∈ pcs, c = '_' ∨ c ∈ azLetters) :
    parseToks (pyUpper (replaceUnderscore pcs)) =
      pcs.map (fun c => if c = '_' then RTok.dot else RTok.lit c.toUpper) := by
  induction pcs with
  | nil => rfl
  | cons c rest ih =>
    have hrest : ∀ x ∈ rest, x = '_' ∨ x ∈ azLetters :=
      fun x hx => hpc x (List.mem_cons_of_mem c hx)
    rcases hpc c (List.mem_cons_self c rest) with hc | hc
    · subst hc
      rw [replaceUnderscore_cons_us]
      rw [show pyUpper ('.' :: '{' :: '1' :: '}' :: replaceUnderscore rest) =
        '.' :: '{' :: '1' :: '}' :: pyUpper (replaceUnderscore rest) from rfl]
      rw [parseToks_dotBrace, ih hrest]
      simp
    · have hne := (azLetters_facts c hc).1
      have hdot := (azLetters_facts c hc).2
      rw [replaceUnderscore_cons_ne c hne]
      rw [show pyUpper (c :: replaceUnderscore rest) =
        c.toUpper :: pyUpper (replaceUnderscore rest) from rfl]
      rw [parseToks_cons_ne _ hdot, ih hrest]
      simp [hne]

lemma tok_pointwise (p w : Char) (hp : p = '_' ∨ p ∈ azLetters)
    (hw : w ∈ azUpper) :
    tokMatches (if p = '_' then RTok.dot else RTok.lit p.toUpper) w = true ↔
      (p = '_' ∨ p.toUpper = w.toUpper) := by
  have hwU : w.toUpper = w := (azUpper_facts w hw).1
  have hwn : ¬ w = '\n' := (azUpper_facts w hw).2
  rcases hp with hp | hp
  · subst hp
    simp [tokMatches, hwn]
  · have hne := (azLetters_facts p hp).1
    rw [if_neg hne, hwU]
    simp [tokMatches, hne]

lemma regexFullMatch_fixed (pcs wcs : List Char)
    (hpc : ∀ c ∈ pcs, c = '_' ∨ c ∈ azLetters)
    (hwc : ∀ c ∈ wcs, c ∈ azUpper) :
    regexFullMatch (parseToks (pyUpper (replaceUnderscore pcs))) wcs =
        true ↔
      specFixedMatches pcs wcs := by
  rw [parseToks_pattern pcs hpc]
  unfold regexFullMatch specFixedMatches
  simp only [Bool.and_eq_true, beq_iff_eq, List.length_map,
    List.all_eq_true]
  apply and_congr Iff.rfl
  rw [List.zip_map_left]
  constructor
  · intro hall pr hpr
    obtain ⟨hp1, hp2⟩ := List.of_mem_zip hpr
    have := hall _ (List.mem_map_of_mem (Prod.map
      (fun c => if c = '_' then RTok.dot else RTok.lit c.toUpper) id) hpr)
    exact (tok_pointwise pr.1 pr.2 (hpc pr.1 hp1) (hwc pr.2 hp2)).mp this
  · intro hall pr' hpr'
    obtain ⟨pr, hpr, rfl⟩ := List.mem_map.mp hpr'
    obtain ⟨hp1, hp2⟩ := List.of_mem_zip hpr
    exact (tok_pointwise pr.1 pr.2 (hpc pr.1 hp1) (hwc pr.2 hp2)).mpr
      (hall pr hpr)

end ScrabbleSpec

namespace ScrabbleSpec

/-- Counterexample for C3: with pattern `_.`, the non-`_` character `.`
is not treated as a literal — the word `AB` is returned although its
second character is `B`, not `.` (the character is passed to the regex
engine, where `.` matches anything). -/
theorem match_fixed_literal_cex :
    (⟨"AB", 0⟩ : Entry Nat) ∈
        matchWords (fun _ => true) ([⟨"AB", 0⟩] : Table Nat) "_." ∧
      ¬ specFixedMatches "_.".toList "AB".toList := by
  constructor
  · decide
  · decide

/-- C3 (amended): for tables whose words are made of uppercase letters
and patterns containing `_` whose other characters are ASCII letters,
`match` performs fixed-position matching: each `_` matches exactly one
character, the pattern is anchored at both ends (a length-N pattern
matches only length-N words), and every non-`_` character matches its
position literally, case-insensitively.  In particular, on the lexicon
`BOAT`, `OATS`, `ROOM` the pattern `_O__` returns exactly `BOAT` and
`ROOM`. -/
theorem match_fixed_correct :
    (∀ (α : Type) (reOk : String → Bool) (t : Table α) (p : String),
        p.toList.contains '_' = true →
        (∀ c ∈ p.toList, c = '_' ∨ c ∈ azLetters) →
        (∀ e ∈ t, ∀ c ∈ e.word.toList, c ∈ azUpper) →
        ∀ e : Entry α,
          (e ∈ matchWords reOk t p ↔
            e ∈ t ∧ specFixedMatches p.toList e.word.toList)) ∧
      matchWords (fun _ => true)
          ([⟨"BOAT", 0⟩, ⟨"OATS", 1⟩, ⟨"ROOM", 2⟩] : Table Nat) "_O__" =
        [⟨"BOAT", 0⟩, ⟨"ROOM", 2⟩] := by
  constructor
  · intro α reOk t p hp hpc hw e
    have hp' : '_' ∈ p.data := by simpa using hp
    have hroute : matchWords reOk t p =
        t.filter (fun e => regexFullMatch
          (parseToks (pyUpper (replaceUnderscore p.data))) e.word.data) := by
      simp [matchWords, hp']
    rw [hroute, List.mem_filter]
    exact and_congr_right fun he =>
      regexFullMatch_fixed p.data e.word.data hpc (hw e he)
  · decide

end ScrabbleSpec

namespace ScrabbleSpec

/-- Witness for C3: on the `BOAT`/`OATS`/`ROOM` lexicon, the entry
`BOAT` satisfies the fixed-position query `_O__`. -/
theorem match_fixed_correct_witness :
    (⟨"BOAT", 0⟩ : Entry Nat) ∈
      matchWords (fun _ => true)
        ([⟨"BOAT", 0⟩, ⟨"OATS", 1⟩, ⟨"ROOM", 2⟩] : Table Nat) "_O__" :=
  (match_fixed_correct.1 Nat (fun _ => true) _ "_O__" (by decide)
    (by decide) (by decide) _).mpr ⟨by decide, by decide⟩

/-- Witness for C8: a returned entry is an entry of the input table. -/
theorem match_preserves_entries_witness :
    (⟨"CAT", 0⟩ : Entry Nat) ∈ ([⟨"CAT", 0⟩] : Table Nat) :=
  (match_preserves_entries (fun _ => true)
    ([⟨"CAT", 0⟩] : Table Nat) "CA?").2 ⟨"CAT", 0⟩ (by decide)

end ScrabbleSpec
